import Mathlib

/-!
# A shallow embedding of `compas_rbe` interface identification

This file embeds the core of the `compas_rbe` repository in Lean 4:

* `src/compas_rbe/interfaces/identify.py` — `identify_interfaces` and
  `_find_nearest_neighbours`;
* `src/compas_rbe/datastructures/assembly.py` — the `Assembly` data
  structure (`add_block`, `add_support`, default attributes).

Numbers are modelled as exact rationals (`ℚ`).  The external scientific
libraries are modelled at their call interface:

* `scipy.linalg.solve` on a 3×3 system becomes `solveAT`, which returns
  `none` exactly when the matrix is singular (scipy raises
  `LinAlgError` there, which propagates);
* `scipy.spatial.cKDTree` nearest-neighbour queries become
  `findNearestNeighbours` (indices sorted by distance; only the index
  component of the query result is consumed by `identify_interfaces`);
* `shapely.geometry.Polygon` becomes an abstract `PolygonEngine` record
  providing `area`, `intersects` and `intersection` (the exterior ring of
  an intersection, closed: first point repeated at the end) — theorems
  about the identifier hold for every engine;
* `compas.geometry.global_coords_numpy` becomes `globalCoords`
  (`xyz = origin + r·u + s·v + t·w` for a frame with row basis `u,v,w`).

`Block` (from `compas_rbe.datastructures.block`, whose file is not part
of the sources here) is modelled from the spec's input contract (§6): a
record providing vertex positions, face vertex-loops, a per-face frame
accessor and a centroid accessor, all stored as data.
-/

/-- A 3D point / vector with exact rational coordinates. -/
structure Vec3 where
  x : ℚ
  y : ℚ
  z : ℚ
deriving DecidableEq, Repr

instance : Add Vec3 := ⟨fun a b => ⟨a.x + b.x, a.y + b.y, a.z + b.z⟩⟩

instance : Sub Vec3 := ⟨fun a b => ⟨a.x - b.x, a.y - b.y, a.z - b.z⟩⟩

/-- Scalar multiple of a vector. -/
def Vec3.scale (q : ℚ) (v : Vec3) : Vec3 := ⟨q * v.x, q * v.y, q * v.z⟩

/-- Euclidean dot product. -/
def Vec3.dot (a b : Vec3) : ℚ := a.x * b.x + a.y * b.y + a.z * b.z

/-- Squared Euclidean distance (orders point clouds exactly as the
Euclidean distance used by `cKDTree.query` does). -/
def distSq (a b : Vec3) : ℚ := (a.x - b.x) ^ 2 + (a.y - b.y) ^ 2 + (a.z - b.z) ^ 2

/-- A face frame `uvw`: the three rows `u`, `v`, `w` of the matrix `A`
built by `A = array(uvw)` in `identify_interfaces`. -/
structure Mat3 where
  u : Vec3
  v : Vec3
  w : Vec3
deriving DecidableEq, Repr

/-- Determinant of the 3×3 matrix with rows (equivalently columns —
determinants are transpose invariant) `a`, `b`, `c`. -/
def det3 (a b c : Vec3) : ℚ :=
  a.x * (b.y * c.z - b.z * c.y) - a.y * (b.x * c.z - b.z * c.x) + a.z * (b.x * c.y - b.y * c.x)

/-- Model of `scipy.linalg.solve(A.T, b)` for the frame matrix `A` with rows
`u, v, w`: the unique coefficients `(r, s, t)` with
`r·u + s·v + t·w = b`, by Cramer's rule.  scipy raises `LinAlgError` on
a singular matrix; that is the `none` case, which propagates through the
caller exactly as a Python exception would. -/
def solveAT (A : Mat3) (b : Vec3) : Option Vec3 :=
  let d := det3 A.u A.v A.w
  if d = 0 then none
  else some ⟨det3 b A.v A.w / d, det3 A.u b A.w / d, det3 A.u A.v b / d⟩

/-- Model of `compas.geometry.global_coords_numpy(o, A, rst)` applied to a single
local point: `xyz = o + r·u + s·v + t·w`. -/
def globalCoords (o : Vec3) (A : Mat3) (p : Vec3) : Vec3 :=
  o + Vec3.scale p.x A.u + Vec3.scale p.y A.v + Vec3.scale p.z A.w

/-- An attribute value, as stored in a compas attribute dict.
`pyNone` is Python's `None`, the default value of the edge attribute
schema. -/
inductive AttrValue where
  | str (s : String)
  | num (q : ℚ)
  | boolean (b : Bool)
  | pt (p : Vec3)
  | pts (ps : List Vec3)
  | frame (m : Mat3)
  | pyNone
deriving DecidableEq, Repr

/-- A Python attribute dict, modelled as an ordered key/value list with
unique keys (insertion order preserved, as in Python dicts). -/
abbrev Attrs : Type := List (String × AttrValue)

/-- First value bound to a key in an attribute dict. -/
def lookupAttr (a : Attrs) (s : String) : Option AttrValue :=
  (a.find? (fun kv => kv.1 == s)).map Prod.snd

/-- Model of `d[k] = v` on an attribute dict: replace in place, else append. -/
def setAttr (a : Attrs) (k : String) (v : AttrValue) : Attrs :=
  if a.any (fun kv => kv.1 == k) then
    a.map (fun kv => if kv.1 == k then (k, v) else kv)
  else a ++ [(k, v)]

/-- Model of `base.update(upd)` on attribute dicts. -/
def updateAttrs (base upd : Attrs) : Attrs :=
  upd.foldl (fun acc kv => setAttr acc kv.1 kv.2) base

/-- Numeric attribute with Python's `KeyError` modelled as a default. -/
def numAttr (a : Attrs) (s : String) : ℚ :=
  match lookupAttr a s with
  | some (AttrValue.num q) => q
  | _ => 0

/-- A block of the assembly.  `compas_rbe.datastructures.block` is not
among the sources; modelled from the spec: the input contract (§6) says
each block provides vertex positions, face vertex-loops, a centroid
accessor and a per-face frame accessor (origin + basis), so those
accessors are stored as data. -/
structure Block where
  vertices : List (ℕ × Vec3)
  faces : List (ℕ × List ℕ)
  frames : List (ℕ × Vec3 × Mat3)
  centroid : Vec3
deriving DecidableEq, Repr

/-- The empty block (used as the lookup default standing in for Python's
`KeyError`; faithful inputs never hit it). -/
def emptyBlock : Block := ⟨[], [], [], ⟨0, 0, 0⟩⟩

/-- Model of `block.vertex_coordinates(key)`. -/
def Block.vertexCoord (b : Block) (k : ℕ) : Vec3 :=
  ((b.vertices.find? (fun kv => kv.1 == k)).map Prod.snd).getD ⟨0, 0, 0⟩

/-- Model of `block.face_vertices(f)`. -/
def Block.faceVertices (b : Block) (f : ℕ) : List ℕ :=
  ((b.faces.find? (fun kv => kv.1 == f)).map Prod.snd).getD []

/-- Model of `block.face_coordinates(f)`. -/
def Block.faceCoordinates (b : Block) (f : ℕ) : List Vec3 :=
  (b.faceVertices f).map b.vertexCoord

/-- The interface of `shapely.geometry.Polygon` as consumed by
`identify_interfaces`: polygon area, intersection test, and the closed
exterior ring of the intersection of two polygons.  Polygons are the
coordinate lists passed to the `Polygon` constructor. -/
structure PolygonEngine where
  area : List Vec3 → ℚ
  intersects : List Vec3 → List Vec3 → Bool
  intersection : List Vec3 → List Vec3 → List Vec3

/-- An edge of the assembly graph: `(u, v, attributes)`. -/
abbrev EdgeT : Type := ℕ × ℕ × Attrs

/-- Model of `u in assembly.edge and v in assembly.edge[u]`: a directed edge from
`u` to `v` exists. -/
def hasEdgeD (es : List EdgeT) (u v : ℕ) : Bool :=
  es.any (fun e => e.1 == u && e.2.1 == v)

/-- The `default_edge_attributes` seeded in `Assembly.__init__`
(`assembly.py` lines 47–54), every field defaulting to Python `None`.
`niterface_size` reproduces the source's misspelling. -/
def defaultEdgeAttributes : Attrs :=
  [("interface_points", AttrValue.pyNone),
   ("interface_type", AttrValue.pyNone),
   ("niterface_size", AttrValue.pyNone),
   ("interface_uvw", AttrValue.pyNone),
   ("interface_origin", AttrValue.pyNone),
   ("interface_forces", AttrValue.pyNone)]

/-- Model of `assembly.add_edge(u, v, attr_dict=a)`: compas Network
builds the edge attribute dict as the `default_edge_attributes`
(seeded in `Assembly.__init__`) updated by the passed `attr_dict`, and
stores it as `edge[u][v]`, overwriting the attributes if the directed
edge already exists and creating it otherwise. -/
def addEdge (es : List EdgeT) (u v : ℕ) (a : Attrs) : List EdgeT :=
  if hasEdgeD es u v then
    es.map (fun e => if e.1 == u && e.2.1 == v
      then (u, v, updateAttrs defaultEdgeAttributes a) else e)
  else es ++ [(u, v, updateAttrs defaultEdgeAttributes a)]

/-- The assembly: a network of vertices (with attribute dicts carrying
`x`, `y`, `z` and `is_support`), a key → block registry, and edges. -/
structure Assembly where
  vertices : List (ℕ × Attrs)
  blocks : List (ℕ × Block)
  edges : List EdgeT
deriving DecidableEq, Repr

/-- Model of `assembly.blocks[key]` (`KeyError` modelled as `emptyBlock`). -/
def lookupBlock (bs : List (ℕ × Block)) (k : ℕ) : Block :=
  ((bs.find? (fun kv => kv.1 == k)).map Prod.snd).getD emptyBlock

/-- Model of `assembly.vertex_coordinates(key)`. -/
def Assembly.vertexCoordinates (asm : Assembly) (k : ℕ) : Vec3 :=
  let a := ((asm.vertices.find? (fun kv => kv.1 == k)).map Prod.snd).getD []
  ⟨numAttr a "x", numAttr a "y", numAttr a "z"⟩

/-- The keyword configuration of `identify_interfaces`, with the Python
defaults (`1e-6`, `1e-1`, `1e-3` read as decimal rationals). -/
structure Config where
  nmax : ℕ := 10
  tmax : ℚ := 1 / 1000000
  amin : ℚ := 1 / 10
  lmin : ℚ := 1 / 1000
  face_face : Bool := true
  face_edge : Bool := false
  face_vertex : Bool := false
deriving DecidableEq, Repr

/-- Fold over a list with a fallible step: a Python `for` loop whose
body may raise (the exception propagates: once `none`, the whole loop
is `none`). -/
def foldlO {σ α : Type} (f : σ → α → Option σ) : σ → List α → Option σ
  | s, [] => some s
  | s, a :: l =>
    match f s a with
    | none => none
    | some s' => foldlO f s' l

/-- Fallible map (a list comprehension whose body may raise). -/
def mapO {α β : Type} (f : α → Option β) : List α → Option (List β)
  | [] => some []
  | a :: l =>
    match f a with
    | none => none
    | some b =>
      match mapO f l with
      | none => none
      | some bs => some (b :: bs)

/-- Stable insertion into a list sorted ascending by `key`. -/
def insertSorted (key : ℕ → ℚ) (i : ℕ) : List ℕ → List ℕ
  | [] => [i]
  | j :: js => if key i < key j then i :: j :: js else j :: insertSorted key i js

/-- Indices of the `nmax` nearest cloud points to `root`, ascending by
distance (squared distance induces the same order), ties resolved
deterministically by index — the index component of
`cKDTree(cloud).query(root, nmax)`. -/
def nearestIndices (cloud : List Vec3) (root : Vec3) (nmax : ℕ) : List ℕ :=
  ((List.range cloud.length).foldl
    (fun acc j => insertSorted (fun j => distSq root ((cloud.get? j).getD ⟨0, 0, 0⟩)) j acc)
    []).take nmax

/-- Model of `_find_nearest_neighbours(cloud, nmax)`, restricted to the index
lists `n` of the returned `(d, n)` pairs — the only component
`identify_interfaces` reads (`block_nnbrs[i][1]`).  Note the queried
point itself is *not* excluded. -/
def findNearestNeighbours (cloud : List Vec3) (nmax : ℕ) : List (List ℕ) :=
  cloud.map (fun root => nearestIndices cloud root nmax)

/-- The `attr` dict literal built on acceptance of a face-face
interface (lines 200–206 of `identify.py`): exactly five entries, the
`interface_points` value being the world ring with the closing
duplicate dropped (`coords.tolist()[:-1]`). -/
def mkAttr (area : ℚ) (coords : List Vec3) (origin : Vec3) (uvw : Mat3) : Attrs :=
  [("interface_type", AttrValue.str "face_face"),
   ("interface_size", AttrValue.num area),
   ("interface_points", AttrValue.pts coords.dropLast),
   ("interface_origin", AttrValue.pt origin),
   ("interface_uvw", AttrValue.frame uvw)]

/-- Model of `[[x, y, 0.0] for x, y, z in ring]` followed by
`global_coords_numpy(o, A, coords)`. -/
def worldRing (origin : Vec3) (uvw : Mat3) (ring : List Vec3) : List Vec3 :=
  ring.map (fun c => globalCoords origin uvw ⟨c.x, c.y, 0⟩)

/-- Model of `rst[key]` for the projected neighbour-vertex dict. -/
def lookupRst (rstm : List (ℕ × Vec3)) (k : ℕ) : Vec3 :=
  ((rstm.find? (fun kv => kv.1 == k)).map Prod.snd).getD ⟨0, 0, 0⟩

/-- Model of `rst1 = [rst[key] for key in nbr.face_vertices(f1)]`. -/
def localFace (rstm : List (ℕ × Vec3)) (nbr : Block) (f1 : ℕ) : List Vec3 :=
  (nbr.faceVertices f1).map (lookupRst rstm)

/-- Model of `any(fabs(t) > tmax for r, s, t in rst1)`: the neighbour face is
rejected as non-coplanar. -/
def coplanarCheck (tmax : ℚ) (rst1 : List Vec3) : Bool :=
  rst1.any (fun c => decide (tmax < |c.z|))

/-- The polygon stage for one neighbour face that passed the
coplanarity filter (lines 180–208): degenerate-polygon check,
intersection test, area threshold, edge insertion. -/
def polygonStage (eng : PolygonEngine) (amin : ℚ) (k n : ℕ) (origin : Vec3) (uvw : Mat3)
    (p0 rst1 : List Vec3) (es : List EdgeT) : List EdgeT :=
  if eng.area rst1 = 0 then es
  else if eng.intersects p0 rst1 then
    let inter := eng.intersection p0 rst1
    let area := eng.area inter
    if amin ≤ area then
      addEdge es k n (mkAttr area (worldRing origin uvw inter) origin uvw)
    else es
  else es

/-- Body of the `for f1 in nbr.faces()` loop (lines 173–208). -/
def processFace1 (eng : PolygonEngine) (tmax amin : ℚ) (k n : ℕ) (origin : Vec3) (uvw : Mat3)
    (p0 : List Vec3) (rstm : List (ℕ × Vec3)) (nbr : Block) (es : List EdgeT) (f1 : ℕ) :
    List EdgeT :=
  let rst1 := localFace rstm nbr f1
  if coplanarCheck tmax rst1 then es
  else polygonStage eng amin k n origin uvw p0 rst1 es

/-- Projection of all neighbour vertices into the base frame
(lines 169–171): `rst = solve(A.T, xyz - o)` as a key → local-coords
dict; fails when the frame is singular. -/
def solveNbr (uvw : Mat3) (origin : Vec3) (nbr : Block) : Option (List (ℕ × Vec3)) :=
  mapO (fun kv => (solveAT uvw (kv.2 - origin)).map (fun c => (kv.1, c))) nbr.vertices

/-- Body of the `for j in nbrs` loop (lines 155–208): skip self, skip
already-connected pairs (both directions), otherwise project the
neighbour and scan its faces. -/
def processNbr (eng : PolygonEngine) (tmax amin : ℚ) (blocks : List (ℕ × Block)) (k : ℕ)
    (origin : Vec3) (uvw : Mat3) (p0 : List Vec3) (es : List EdgeT) (n : ℕ) :
    Option (List EdgeT) :=
  if n = k then some es
  else if hasEdgeD es k n then some es
  else if hasEdgeD es n k then some es
  else
    let nbr := lookupBlock blocks n
    match solveNbr uvw origin nbr with
    | none => none
    | some rstm =>
      some ((nbr.faces.map Prod.fst).foldl
        (processFace1 eng tmax amin k n origin uvw p0 rstm nbr) es)

/-- Model of `rst0 = solve(A.T, xyz0 - o)` (lines 151–152): local coordinates of
the base face's own vertices; fails when the frame is singular. -/
def solveFace0 (blk : Block) (f0 : ℕ) (origin : Vec3) (uvw : Mat3) : Option (List Vec3) :=
  mapO (fun p => solveAT uvw (p - origin)) (blk.faceCoordinates f0)

/-- Body of the `for f0, (origin, uvw) in frames.items()` loop
(lines 148–208). -/
def processFrame (eng : PolygonEngine) (tmax amin : ℚ) (blocks : List (ℕ × Block)) (k : ℕ)
    (blk : Block) (nbrKeys : List ℕ) (es : List EdgeT) (fr : ℕ × Vec3 × Mat3) :
    Option (List EdgeT) :=
  match solveFace0 blk fr.1 fr.2.1 fr.2.2 with
  | none => none
  | some p0 => foldlO (processNbr eng tmax amin blocks k fr.2.1 fr.2.2 p0) es nbrKeys

/-- Body of the `for k in assembly.vertices()` loop (lines 134–208),
driven by the position `i` of the key (`i = key_index[k]`,
`n = index_key[j]`). -/
def processBlock (eng : PolygonEngine) (cfg : Config) (blocks : List (ℕ × Block))
    (keys : List ℕ) (nnbrs : List (List ℕ)) (es : List EdgeT) (i : ℕ) :
    Option (List EdgeT) :=
  let k := (keys.get? i).getD 0
  let blk := lookupBlock blocks k
  let nbrKeys := ((nnbrs.get? i).getD []).map (fun j => (keys.get? j).getD 0)
  if cfg.face_face then
    foldlO (processFrame eng cfg.tmax cfg.amin blocks k blk nbrKeys) es blk.frames
  else some es

/-- Model of `identify_interfaces(assembly, nmax, tmax, amin, lmin, face_face,
face_edge, face_vertex)` (lines 54–208).  `face_edge`, `face_vertex`
and `lmin` are accepted but unused, exactly as in the source.  The
result is `none` when a `LinAlgError` from a singular face frame
propagates out; otherwise the same assembly with edges added. -/
def identify_interfaces (eng : PolygonEngine) (asm : Assembly) (cfg : Config) :
    Option Assembly :=
  let keys := asm.vertices.map Prod.fst
  let nmax := min cfg.nmax keys.length
  let cloud := keys.map asm.vertexCoordinates
  let nnbrs := findNearestNeighbours cloud nmax
  (foldlO (processBlock eng cfg asm.blocks keys nnbrs) asm.edges
    (List.range keys.length)).map (fun es => { asm with edges := es })

/-- Model of `Assembly.default_vertex_attributes` seeded in
`Assembly.__init__`. -/
def defaultVertexAttributes : Attrs := [("is_support", AttrValue.boolean false)]

/-- Fresh integer vertex key. -/
def nextKey (vs : List (ℕ × Attrs)) : ℕ :=
  vs.foldl (fun m kv => max m (kv.1 + 1)) 0

/-- The coordinate keyword arguments `x=x, y=y, z=z`. -/
def xyzAttrs (p : Vec3) : Attrs :=
  [("x", AttrValue.num p.x), ("y", AttrValue.num p.y), ("z", AttrValue.num p.z)]

/-- Model of `Network.add_vertex(attr_dict=attr_dict, **kwattr)`: defaults
updated by `attr_dict` updated by the keyword arguments. -/
def Assembly.add_vertex (asm : Assembly) (attr_dict : Attrs) (kwattr : Attrs) :
    Assembly × ℕ :=
  let key := nextKey asm.vertices
  let a := updateAttrs (updateAttrs defaultVertexAttributes attr_dict) kwattr
  ({ asm with vertices := asm.vertices ++ [(key, a)] }, key)

/-- Model of `Assembly.add_block(block, attr_dict=None, **kwattr)`
(lines 186–213 of `assembly.py`): merges `attr_dict` and `kwattr` and
passes them to `add_vertex` together with the centroid coordinates. -/
def Assembly.add_block (asm : Assembly) (b : Block) (attr_dict : Attrs) (kwattr : Attrs) :
    Assembly × ℕ :=
  let a := updateAttrs attr_dict kwattr
  let r := asm.add_vertex a (xyzAttrs b.centroid)
  ({ r.1 with blocks := r.1.blocks ++ [(r.2, b)] }, r.2)

/-- Model of `Assembly.add_support(block, attr_dict=None, **kwattr)`
(lines 215–240 of `assembly.py`): the `attr_dict` and `kwattr`
parameters are accepted but never read; the vertex is inserted with the
centroid coordinates and `is_support=True` only. -/
def Assembly.add_support (asm : Assembly) (b : Block) (attr_dict : Attrs) (kwattr : Attrs) :
    Assembly × ℕ :=
  let r := asm.add_vertex []
    (xyzAttrs b.centroid ++ [("is_support", AttrValue.boolean true)])
  ({ r.1 with blocks := r.1.blocks ++ [(r.2, b)] }, r.2)

/-!
## Concrete instances used by witnesses and counterexamples

Two unit cubes stacked in `z`, each represented by the single face on
their shared plane `z = 1`.  The polygon engine `engT` is a concrete
`shapely` stand-in whose intersections always succeed with area `1`.
-/

/-- A concrete polygon engine: every polygon has area `1` (the empty
one area `0`, as `shapely` gives `Polygon([]).area == 0.0`), every pair
intersects, and the intersection's exterior ring is the first polygon
closed by repeating its first point. -/
def engT : PolygonEngine where
  area := fun p => if p.length = 0 then 0 else 1
  intersects := fun _ _ => true
  intersection := fun p _ => p ++ [(p.get? 0).getD ⟨0, 0, 0⟩]

/-- The identity frame. -/
def frameI : Mat3 := ⟨⟨1, 0, 0⟩, ⟨0, 1, 0⟩, ⟨0, 0, 1⟩⟩

/-- Unit square at height `z`, vertex keys `0..3`. -/
def sqVerts (z : ℚ) : List (ℕ × Vec3) :=
  [(0, ⟨0, 0, z⟩), (1, ⟨1, 0, z⟩), (2, ⟨1, 1, z⟩), (3, ⟨0, 1, z⟩)]

/-- Lower cube: top face `10` on the plane `z = 1`. -/
def blk0 : Block :=
  ⟨sqVerts 1, [(10, [0, 1, 2, 3])], [(10, ⟨0, 0, 1⟩, frameI)], ⟨1/2, 1/2, 1/2⟩⟩

/-- Upper cube: bottom face `20` on the plane `z = 1`. -/
def blk1 : Block :=
  ⟨sqVerts 1, [(20, [0, 1, 2, 3])], [(20, ⟨0, 0, 1⟩, frameI)], ⟨1/2, 1/2, 3/2⟩⟩

/-- Two-block assembly with no pre-existing edges. -/
def asmW : Assembly :=
  ⟨[(0, xyzAttrs ⟨1/2, 1/2, 1/2⟩), (1, xyzAttrs ⟨1/2, 1/2, 3/2⟩)],
   [(0, blk0), (1, blk1)], []⟩

/-- A configuration with `amin = 1`, exactly the area `engT` reports:
the inclusive-threshold boundary case. -/
def cfgW : Config :=
  { nmax := 10, tmax := 0, amin := 1, lmin := 1/1000,
    face_face := true, face_edge := false, face_vertex := false }

/-- Result of the first identification pass on `asmW`. -/
def asmW2 : Assembly := (identify_interfaces engT asmW cfgW).getD asmW

/-- A singular (degenerate, zero-area) face frame: `det = 0`. -/
def frameSing : Mat3 := ⟨⟨1, 0, 0⟩, ⟨1, 0, 0⟩, ⟨0, 0, 0⟩⟩

/-- Lower cube whose face list carries the degenerate face `30`
(singular frame) before the good face `10`. -/
def blkSing : Block :=
  ⟨sqVerts 1, [(30, [0, 1, 2, 3]), (10, [0, 1, 2, 3])],
   [(30, ⟨0, 0, 1⟩, frameSing), (10, ⟨0, 0, 1⟩, frameI)], ⟨1/2, 1/2, 1/2⟩⟩

/-- Like `blkSing` but with the degenerate frame removed. -/
def blkCont : Block :=
  ⟨sqVerts 1, [(30, [0, 1, 2, 3]), (10, [0, 1, 2, 3])],
   [(10, ⟨0, 0, 1⟩, frameI)], ⟨1/2, 1/2, 1/2⟩⟩

/-- Assembly whose base block has a singular-frame face followed by a
face that does admit an interface with the neighbour. -/
def asmSing : Assembly :=
  ⟨[(0, xyzAttrs ⟨1/2, 1/2, 1/2⟩), (1, xyzAttrs ⟨1/2, 1/2, 3/2⟩)],
   [(0, blkSing), (1, blk1)], []⟩

/-- Model of `asmSing` with the singular frame removed: what "skip that face and
continue" would operate on. -/
def asmCont : Assembly :=
  ⟨[(0, xyzAttrs ⟨1/2, 1/2, 1/2⟩), (1, xyzAttrs ⟨1/2, 1/2, 3/2⟩)],
   [(0, blkCont), (1, blk1)], []⟩

/-- An invalid configuration: negative coplanarity tolerance. -/
def cfgNeg : Config :=
  { nmax := 10, tmax := -1, amin := 1, lmin := 1/1000,
    face_face := true, face_edge := false, face_vertex := false }

/-!
## Specification vocabulary

Predicates used to state the verified properties.
-/

/-- The full chain of conditions under which the `f1` loop body inserts
an edge: coplanar within `tmax`, non-degenerate polygon, intersecting,
and intersection area at least `amin`. -/
def faceAccepts (eng : PolygonEngine) (tmax amin : ℚ) (p0 : List Vec3)
    (rstm : List (ℕ × Vec3)) (nbr : Block) (f1 : ℕ) : Bool :=
  let rst1 := localFace rstm nbr f1
  !coplanarCheck tmax rst1 && !decide (eng.area rst1 = 0) &&
    eng.intersects p0 rst1 && decide (amin ≤ eng.area (eng.intersection p0 rst1))

/-- The attribute dict inserted for an accepted neighbour face whose
projected polygon is `rst1`. -/
def attrFor (eng : PolygonEngine) (origin : Vec3) (uvw : Mat3) (p0 rst1 : List Vec3) : Attrs :=
  mkAttr (eng.area (eng.intersection p0 rst1))
    (worldRing origin uvw (eng.intersection p0 rst1)) origin uvw

/-- Two edges connect the same unordered pair of nodes. -/
def samePair (e f : EdgeT) : Prop :=
  (e.1 = f.1 ∧ e.2.1 = f.2.1) ∨ (e.1 = f.2.1 ∧ e.2.1 = f.1)

instance : DecidableRel samePair := by
  intro e f; unfold samePair; infer_instance

/-- At most one edge exists between any unordered pair of nodes. -/
def pairUnique (es : List EdgeT) : Prop :=
  List.Pairwise (fun e f => ¬samePair e f) es

/-- An edge together with attributes produced by an acceptance of the
face-face test: non-self-loop, attribute bundle of the literal
`mkAttr` shape for some frame and intersection ring, and area at least
`amin`. -/
def NewShaped (eng : PolygonEngine) (amin : ℚ) (e : EdgeT) : Prop :=
  e.1 ≠ e.2.1 ∧ ∃ origin uvw ring,
    e.2.2 = updateAttrs defaultEdgeAttributes
      (mkAttr (eng.area ring) (worldRing origin uvw ring) origin uvw) ∧
    amin ≤ eng.area ring

/-- A face frame is orthonormal: rows pairwise orthogonal unit
vectors. -/
def orthonormalFrame (A : Mat3) : Prop :=
  Vec3.dot A.u A.u = 1 ∧ Vec3.dot A.v A.v = 1 ∧ Vec3.dot A.w A.w = 1 ∧
  Vec3.dot A.u A.v = 0 ∧ Vec3.dot A.u A.w = 0 ∧ Vec3.dot A.v A.w = 0

/-- The single edge produced by the identification pass on `asmW`
(used by witnesses). -/
def edgeW : EdgeT := (asmW2.edges.get? 0).getD (0, 0, [])

/-!
## Helper lemmas: loops and edge insertion
-/

theorem aux_foldlO_none {σ α : Type} (f : σ → α → Option σ) {a : α} {l : List α}
    (ha : a ∈ l) (hf : ∀ s, f s a = none) : ∀ s, foldlO f s l = none := by
  induction l with
  | nil => cases ha
  | cons b l ih =>
    intro s
    rcases List.mem_cons.mp ha with rfl | ha'
    · simp [foldlO, hf s]
    · cases hb : f s b with
      | none => simp [foldlO, hb]
      | some s' => simpa [foldlO, hb] using ih ha' s'

theorem aux_foldlO_id {σ α : Type} (f : σ → α → Option σ) {l : List α} {s : σ}
    (h : ∀ a ∈ l, f s a = some s) : foldlO f s l = some s := by
  induction l with
  | nil => rfl
  | cons b l ih =>
    have hb := h b (List.mem_cons_self b l)
    simp only [foldlO, hb]
    exact ih (fun a ha => h a (List.mem_cons_of_mem b ha))

theorem aux_foldlO_inv {σ α : Type} (P : σ → Prop) (f : σ → α → Option σ) {l : List α}
    {s s' : σ} (hf : foldlO f s l = some s') (hP : P s)
    (hstep : ∀ t a t', a ∈ l → P t → f t a = some t' → P t') : P s' := by
  induction l generalizing s with
  | nil =>
    simp only [foldlO, Option.some.injEq] at hf
    exact hf ▸ hP
  | cons b l ih =>
    rw [foldlO] at hf
    cases hb : f s b with
    | none => rw [hb] at hf; cases hf
    | some t =>
      rw [hb] at hf
      exact ih hf (hstep s b t (List.mem_cons_self b l) hP hb)
        (fun t a t' ha => hstep t a t' (List.mem_cons_of_mem b ha))

theorem aux_foldlO_none_or_id {σ α : Type} (f : σ → α → Option σ) {l : List α}
    (h : ∀ t a, a ∈ l → f t a = none ∨ f t a = some t) (s : σ) :
    foldlO f s l = none ∨ foldlO f s l = some s := by
  induction l with
  | nil => right; rfl
  | cons b l ih =>
    rcases h s b (List.mem_cons_self b l) with hb | hb
    · left; simp [foldlO, hb]
    · simp only [foldlO, hb]
      exact ih (fun t a ha => h t a (List.mem_cons_of_mem b ha))

theorem aux_foldl_id {σ α : Type} (f : σ → α → σ) {l : List α} (s : σ)
    (h : ∀ t a, a ∈ l → f t a = t) : l.foldl f s = s := by
  induction l generalizing s with
  | nil => rfl
  | cons b l ih =>
    rw [List.foldl_cons, h s b (List.mem_cons_self b l)]
    exact ih s (fun t a ha => h t a (List.mem_cons_of_mem b ha))

theorem aux_foldl_inv {σ α : Type} (P : σ → Prop) (f : σ → α → σ) {l : List α} {s : σ}
    (hP : P s) (hstep : ∀ t a, a ∈ l → P t → P (f t a)) : P (l.foldl f s) := by
  induction l generalizing s with
  | nil => exact hP
  | cons b l ih =>
    rw [List.foldl_cons]
    exact ih (hstep s b (List.mem_cons_self b l) hP)
      (fun t a ha => hstep t a (List.mem_cons_of_mem b ha))

theorem aux_hasEdgeD_iff {es : List EdgeT} {u v : ℕ} :
    hasEdgeD es u v = true ↔ ∃ e ∈ es, e.1 = u ∧ e.2.1 = v := by
  simp [hasEdgeD, List.any_eq_true, Bool.and_eq_true, beq_iff_eq]

theorem aux_mem_addEdge {es : List EdgeT} {u v : ℕ} {a : Attrs} {e : EdgeT}
    (he : e ∈ addEdge es u v a) :
    e = (u, v, updateAttrs defaultEdgeAttributes a) ∨ e ∈ es := by
  unfold addEdge at he
  by_cases h : hasEdgeD es u v
  · rw [if_pos h] at he
    rcases List.mem_map.mp he with ⟨e', he', heq⟩
    by_cases hm : (e'.1 == u && e'.2.1 == v) = true
    · left; rw [if_pos hm] at heq; exact heq.symm
    · right; rw [if_neg hm] at heq; exact heq ▸ he'
  · rw [if_neg h] at he
    rcases List.mem_append.mp he with h' | h'
    · right; exact h'
    · left; simpa using h'

theorem aux_mem_addEdge_of_mem {es : List EdgeT} {u v : ℕ} {a : Attrs} {e : EdgeT}
    (he : e ∈ es) (hne : ¬(e.1 = u ∧ e.2.1 = v)) : e ∈ addEdge es u v a := by
  unfold addEdge
  by_cases h : hasEdgeD es u v
  · rw [if_pos h]
    refine List.mem_map.mpr ⟨e, he, ?_⟩
    have hm : (e.1 == u && e.2.1 == v) = false := by
      rcases Decidable.not_and_iff_or_not.mp hne with h' | h' <;>
        simp [beq_iff_eq, h']
    rw [if_neg (by simp [hm])]
  · rw [if_neg h]
    exact List.mem_append_left _ he

theorem aux_hasEdge_addEdge_self {es : List EdgeT} {u v : ℕ} {a : Attrs} :
    hasEdgeD (addEdge es u v a) u v = true := by
  unfold addEdge
  by_cases h : hasEdgeD es u v
  · rw [if_pos h]
    rcases aux_hasEdgeD_iff.mp h with ⟨e, he, h1, h2⟩
    refine aux_hasEdgeD_iff.mpr
      ⟨(u, v, updateAttrs defaultEdgeAttributes a), List.mem_map.mpr ⟨e, he, ?_⟩, rfl, rfl⟩
    rw [if_pos (by simp [beq_iff_eq, h1, h2])]
  · rw [if_neg h]
    exact aux_hasEdgeD_iff.mpr ⟨(u, v, updateAttrs defaultEdgeAttributes a),
      List.mem_append_right _ (by simp), rfl, rfl⟩

theorem aux_hasEdge_addEdge_mono {es : List EdgeT} {u v x y : ℕ} {a : Attrs}
    (h : hasEdgeD es x y = true) : hasEdgeD (addEdge es u v a) x y = true := by
  rcases aux_hasEdgeD_iff.mp h with ⟨e, he, hex, hey⟩
  by_cases hm : e.1 = u ∧ e.2.1 = v
  · have hx : x = u := hex ▸ hm.1
    have hy : y = v := hey ▸ hm.2
    rw [hx, hy]; exact aux_hasEdge_addEdge_self
  · exact aux_hasEdgeD_iff.mpr ⟨e, aux_mem_addEdge_of_mem he hm, hex, hey⟩

theorem aux_hasEdge_addEdge_rev {es : List EdgeT} {u v x y : ℕ} {a : Attrs}
    (h : hasEdgeD (addEdge es u v a) x y = true) :
    hasEdgeD es x y = true ∨ (u = x ∧ v = y) := by
  rcases aux_hasEdgeD_iff.mp h with ⟨e, he, hex, hey⟩
  rcases aux_mem_addEdge he with rfl | he'
  · right; exact ⟨hex, hey⟩
  · left; exact aux_hasEdgeD_iff.mpr ⟨e, he', hex, hey⟩

theorem aux_processFace1_eq (eng : PolygonEngine) (tmax amin : ℚ) (k n : ℕ) (origin : Vec3)
    (uvw : Mat3) (p0 : List Vec3) (rstm : List (ℕ × Vec3)) (nbr : Block) (es : List EdgeT)
    (f1 : ℕ) :
    processFace1 eng tmax amin k n origin uvw p0 rstm nbr es f1 =
      if faceAccepts eng tmax amin p0 rstm nbr f1 = true then
        addEdge es k n (attrFor eng origin uvw p0 (localFace rstm nbr f1))
      else es := by
  unfold processFace1 polygonStage faceAccepts attrFor
  by_cases h1 : coplanarCheck tmax (localFace rstm nbr f1) = true
  · simp [h1]
  · by_cases h2 : eng.area (localFace rstm nbr f1) = 0
    · simp [h1, h2]
    · by_cases h3 : eng.intersects p0 (localFace rstm nbr f1) = true
      · by_cases h4 : amin ≤ eng.area (eng.intersection p0 (localFace rstm nbr f1))
        · simp [h1, h2, h3, h4]
        · simp [h1, h2, h3, h4]
      · simp [h1, h2, h3]

theorem aux_faceAccepts_area {eng : PolygonEngine} {tmax amin : ℚ} {p0 : List Vec3}
    {rstm : List (ℕ × Vec3)} {nbr : Block} {f1 : ℕ}
    (h : faceAccepts eng tmax amin p0 rstm nbr f1 = true) :
    amin ≤ eng.area (eng.intersection p0 (localFace rstm nbr f1)) := by
  unfold faceAccepts at h
  simp only [Bool.and_eq_true, decide_eq_true_eq] at h
  exact h.2

theorem aux_face1_fold_mono {eng : PolygonEngine} {tmax amin : ℚ} {k n : ℕ} {origin : Vec3}
    {uvw : Mat3} {p0 : List Vec3} {rstm : List (ℕ × Vec3)} {nbr : Block} {l : List ℕ}
    {es : List EdgeT} {x y : ℕ} (h : hasEdgeD es x y = true) :
    hasEdgeD (l.foldl (processFace1 eng tmax amin k n origin uvw p0 rstm nbr) es) x y = true := by
  refine aux_foldl_inv (fun es => hasEdgeD es x y = true) _ h ?_
  intro t f1 _ ht
  rw [aux_processFace1_eq]
  by_cases ha : faceAccepts eng tmax amin p0 rstm nbr f1 = true
  · rw [if_pos ha]; exact aux_hasEdge_addEdge_mono ht
  · rw [if_neg ha]; exact ht

theorem aux_face1_fold_id {eng : PolygonEngine} {tmax amin : ℚ} {k n : ℕ} {origin : Vec3}
    {uvw : Mat3} {p0 : List Vec3} {rstm : List (ℕ × Vec3)} {nbr : Block} {l : List ℕ}
    {es : List EdgeT}
    (hrej : ∀ f1 ∈ l, faceAccepts eng tmax amin p0 rstm nbr f1 = false) :
    l.foldl (processFace1 eng tmax amin k n origin uvw p0 rstm nbr) es = es := by
  refine aux_foldl_id _ es ?_
  intro t f1 hf
  rw [aux_processFace1_eq, if_neg (by simp [hrej f1 hf])]

theorem aux_face1_fold_accept {eng : PolygonEngine} {tmax amin : ℚ} {k n : ℕ} {origin : Vec3}
    {uvw : Mat3} {p0 : List Vec3} {rstm : List (ℕ × Vec3)} {nbr : Block} {l : List ℕ}
    {es : List EdgeT}
    (hacc : ∃ f1 ∈ l, faceAccepts eng tmax amin p0 rstm nbr f1 = true) :
    hasEdgeD (l.foldl (processFace1 eng tmax amin k n origin uvw p0 rstm nbr) es) k n = true := by
  induction l generalizing es with
  | nil => rcases hacc with ⟨f1, hf, _⟩; cases hf
  | cons b l ih =>
    rcases hacc with ⟨f1, hf, hA⟩
    rw [List.foldl_cons]
    rcases List.mem_cons.mp hf with rfl | hf'
    · have : hasEdgeD (processFace1 eng tmax amin k n origin uvw p0 rstm nbr es f1) k n = true := by
        rw [aux_processFace1_eq, if_pos hA]
        exact aux_hasEdge_addEdge_self
      exact aux_face1_fold_mono this
    · exact ih ⟨f1, hf', hA⟩

theorem aux_replace_proj (u v : ℕ) (a : Attrs) (e : EdgeT) :
    (if e.1 == u && e.2.1 == v then ((u, v, a) : EdgeT) else e).1 = e.1 ∧
    (if e.1 == u && e.2.1 == v then ((u, v, a) : EdgeT) else e).2.1 = e.2.1 := by
  by_cases hm : (e.1 == u && e.2.1 == v) = true
  · rw [if_pos hm]
    simp only [Bool.and_eq_true, beq_iff_eq] at hm
    exact ⟨hm.1.symm, hm.2.symm⟩
  · rw [if_neg hm]; exact ⟨rfl, rfl⟩

theorem aux_pairUnique_addEdge {es : List EdgeT} {u v : ℕ} {a : Attrs}
    (hP : pairUnique es) (hrev : hasEdgeD es v u = false) :
    pairUnique (addEdge es u v a) := by
  unfold addEdge
  by_cases h : hasEdgeD es u v
  · rw [if_pos h]
    unfold pairUnique at *
    rw [List.pairwise_map]
    refine hP.imp ?_
    intro e f hef hsp
    apply hef
    obtain ⟨pe1, pe2⟩ := aux_replace_proj u v (updateAttrs defaultEdgeAttributes a) e
    obtain ⟨pf1, pf2⟩ := aux_replace_proj u v (updateAttrs defaultEdgeAttributes a) f
    unfold samePair at *
    rw [pe1, pe2, pf1, pf2] at hsp
    exact hsp
  · rw [if_neg h]
    unfold pairUnique at *
    rw [List.pairwise_append]
    refine ⟨hP, List.pairwise_singleton _ _, ?_⟩
    intro e he e' he'
    simp only [List.mem_singleton] at he'
    subst he'
    intro hsp
    rcases hsp with ⟨h1, h2⟩ | ⟨h1, h2⟩
    · exact h (aux_hasEdgeD_iff.mpr ⟨e, he, h1, h2⟩)
    · have := aux_hasEdgeD_iff.mpr ⟨e, he, h1, h2⟩
      rw [hrev] at this; cases this

theorem aux_face1_fold_pairUnique {eng : PolygonEngine} {tmax amin : ℚ} {k n : ℕ}
    {origin : Vec3} {uvw : Mat3} {p0 : List Vec3} {rstm : List (ℕ × Vec3)} {nbr : Block}
    {l : List ℕ} {es : List EdgeT} (hkn : k ≠ n)
    (h : pairUnique es ∧ hasEdgeD es n k = false) :
    pairUnique (l.foldl (processFace1 eng tmax amin k n origin uvw p0 rstm nbr) es) ∧
    hasEdgeD (l.foldl (processFace1 eng tmax amin k n origin uvw p0 rstm nbr) es) n k = false := by
  refine aux_foldl_inv (fun es => pairUnique es ∧ hasEdgeD es n k = false) _ h ?_
  intro t f1 _ ht
  rw [aux_processFace1_eq]
  by_cases ha : faceAccepts eng tmax amin p0 rstm nbr f1 = true
  · rw [if_pos ha]
    refine ⟨aux_pairUnique_addEdge ht.1 ht.2, ?_⟩
    by_contra hc
    rcases aux_hasEdge_addEdge_rev (eq_true_of_ne_false hc) with h' | ⟨h1, _⟩
    · rw [ht.2] at h'; cases h'
    · exact hkn h1
  · rw [if_neg ha]; exact ht

theorem aux_face1_fold_shaped {eng : PolygonEngine} {tmax amin : ℚ} {k n : ℕ}
    {origin : Vec3} {uvw : Mat3} {p0 : List Vec3} {rstm : List (ℕ × Vec3)} {nbr : Block}
    {l : List ℕ} {es es₀ : List EdgeT} (hkn : k ≠ n)
    (h : ∀ e ∈ es, e ∈ es₀ ∨ NewShaped eng amin e) :
    ∀ e ∈ l.foldl (processFace1 eng tmax amin k n origin uvw p0 rstm nbr) es,
      e ∈ es₀ ∨ NewShaped eng amin e := by
  refine aux_foldl_inv (fun es => ∀ e ∈ es, e ∈ es₀ ∨ NewShaped eng amin e) _ h ?_
  intro t f1 _ ht e he
  rw [aux_processFace1_eq] at he
  by_cases ha : faceAccepts eng tmax amin p0 rstm nbr f1 = true
  · rw [if_pos ha] at he
    rcases aux_mem_addEdge he with rfl | he'
    · right
      exact ⟨hkn, origin, uvw, eng.intersection p0 (localFace rstm nbr f1), rfl,
        aux_faceAccepts_area ha⟩
    · exact ht e he'
  · rw [if_neg ha] at he; exact ht e he

theorem aux_processNbr_cases {eng : PolygonEngine} {tmax amin : ℚ} {blocks : List (ℕ × Block)}
    {k : ℕ} {origin : Vec3} {uvw : Mat3} {p0 : List Vec3} {es : List EdgeT} {n : ℕ}
    {es' : List EdgeT}
    (h : processNbr eng tmax amin blocks k origin uvw p0 es n = some es') :
    (es' = es ∧ (n = k ∨ hasEdgeD es k n = true ∨ hasEdgeD es n k = true)) ∨
    (n ≠ k ∧ hasEdgeD es k n = false ∧ hasEdgeD es n k = false ∧
      ∃ rstm, solveNbr uvw origin (lookupBlock blocks n) = some rstm ∧
        es' = ((lookupBlock blocks n).faces.map Prod.fst).foldl
          (processFace1 eng tmax amin k n origin uvw p0 rstm (lookupBlock blocks n)) es) := by
  simp only [processNbr] at h
  by_cases h0 : n = k
  · rw [if_pos h0] at h
    exact Or.inl ⟨(Option.some.inj h).symm, Or.inl h0⟩
  rw [if_neg h0] at h
  by_cases h1 : hasEdgeD es k n = true
  · rw [if_pos h1] at h
    exact Or.inl ⟨(Option.some.inj h).symm, Or.inr (Or.inl h1)⟩
  rw [if_neg h1] at h
  by_cases h2 : hasEdgeD es n k = true
  · rw [if_pos h2] at h
    exact Or.inl ⟨(Option.some.inj h).symm, Or.inr (Or.inr h2)⟩
  rw [if_neg h2] at h
  cases hs : solveNbr uvw origin (lookupBlock blocks n) with
  | none => rw [hs] at h; cases h
  | some rstm =>
    rw [hs] at h
    exact Or.inr ⟨h0, Bool.eq_false_iff.mpr h1, Bool.eq_false_iff.mpr h2,
      rstm, rfl, (Option.some.inj h).symm⟩

theorem aux_processNbr_mono {eng : PolygonEngine} {tmax amin : ℚ} {blocks : List (ℕ × Block)}
    {k : ℕ} {origin : Vec3} {uvw : Mat3} {p0 : List Vec3} {es : List EdgeT} {n : ℕ}
    {es' : List EdgeT} {x y : ℕ}
    (h : processNbr eng tmax amin blocks k origin uvw p0 es n = some es')
    (hxy : hasEdgeD es x y = true) : hasEdgeD es' x y = true := by
  rcases aux_processNbr_cases h with ⟨rfl, -⟩ | ⟨-, -, -, rstm, -, rfl⟩
  · exact hxy
  · exact aux_face1_fold_mono hxy

theorem aux_processNbr_pairUnique {eng : PolygonEngine} {tmax amin : ℚ}
    {blocks : List (ℕ × Block)} {k : ℕ} {origin : Vec3} {uvw : Mat3} {p0 : List Vec3}
    {es : List EdgeT} {n : ℕ} {es' : List EdgeT}
    (h : processNbr eng tmax amin blocks k origin uvw p0 es n = some es')
    (hP : pairUnique es) : pairUnique es' := by
  rcases aux_processNbr_cases h with ⟨rfl, -⟩ | ⟨hnk, -, h2, rstm, -, rfl⟩
  · exact hP
  · exact (aux_face1_fold_pairUnique (Ne.symm hnk) ⟨hP, h2⟩).1

theorem aux_processNbr_shaped {eng : PolygonEngine} {tmax amin : ℚ}
    {blocks : List (ℕ × Block)} {k : ℕ} {origin : Vec3} {uvw : Mat3} {p0 : List Vec3}
    {es : List EdgeT} {n : ℕ} {es' es₀ : List EdgeT}
    (h : processNbr eng tmax amin blocks k origin uvw p0 es n = some es')
    (hS : ∀ e ∈ es, e ∈ es₀ ∨ NewShaped eng amin e) :
    ∀ e ∈ es', e ∈ es₀ ∨ NewShaped eng amin e := by
  rcases aux_processNbr_cases h with ⟨rfl, -⟩ | ⟨hnk, -, -, rstm, -, rfl⟩
  · exact hS
  · exact aux_face1_fold_shaped (Ne.symm hnk) hS

theorem aux_processNbr_extract {eng : PolygonEngine} {tmax amin : ℚ}
    {blocks : List (ℕ × Block)} {k : ℕ} {origin : Vec3} {uvw : Mat3} {p0 : List Vec3}
    {es : List EdgeT} {n : ℕ} {es' : List EdgeT}
    (h : processNbr eng tmax amin blocks k origin uvw p0 es n = some es')
    (hnk : n ≠ k) (hkf : hasEdgeD es' k n = false) (hnf : hasEdgeD es' n k = false) :
    ∃ rstm, solveNbr uvw origin (lookupBlock blocks n) = some rstm ∧
      ∀ f1 ∈ (lookupBlock blocks n).faces.map Prod.fst,
        faceAccepts eng tmax amin p0 rstm (lookupBlock blocks n) f1 = false := by
  rcases aux_processNbr_cases h with ⟨rfl, hh⟩ | ⟨-, -, -, rstm, hs, rfl⟩
  · rcases hh with h0 | h1 | h2
    · exact absurd h0 hnk
    · simp [h1] at hkf
    · simp [h2] at hnf
  · refine ⟨rstm, hs, ?_⟩
    intro f1 hf
    by_contra hacc
    have hT := @aux_face1_fold_accept eng tmax amin k n origin uvw p0 rstm
      (lookupBlock blocks n) ((lookupBlock blocks n).faces.map Prod.fst) es
      ⟨f1, hf, eq_true_of_ne_false hacc⟩
    exact Bool.noConfusion (hT.symm.trans hkf)

theorem aux_processNbr_id {eng : PolygonEngine} {tmax amin : ℚ}
    {blocks : List (ℕ × Block)} {k : ℕ} {origin : Vec3} {uvw : Mat3} {p0 : List Vec3}
    {es : List EdgeT} {n : ℕ}
    (h : n ≠ k → hasEdgeD es k n = false → hasEdgeD es n k = false →
      ∃ rstm, solveNbr uvw origin (lookupBlock blocks n) = some rstm ∧
        ∀ f1 ∈ (lookupBlock blocks n).faces.map Prod.fst,
          faceAccepts eng tmax amin p0 rstm (lookupBlock blocks n) f1 = false) :
    processNbr eng tmax amin blocks k origin uvw p0 es n = some es := by
  simp only [processNbr]
  by_cases h0 : n = k
  · rw [if_pos h0]
  rw [if_neg h0]
  by_cases h1 : hasEdgeD es k n = true
  · rw [if_pos h1]
  rw [if_neg h1]
  by_cases h2 : hasEdgeD es n k = true
  · rw [if_pos h2]
  rw [if_neg h2]
  obtain ⟨rstm, hs, hrej⟩ := h h0 (Bool.eq_false_iff.mpr h1) (Bool.eq_false_iff.mpr h2)
  rw [hs]
  exact congrArg some (aux_face1_fold_id hrej)

theorem aux_processNbr_none_or_id {eng : PolygonEngine} {tmax amin : ℚ}
    {blocks : List (ℕ × Block)} {k : ℕ} {origin : Vec3} {uvw : Mat3} {p0 : List Vec3}
    {es : List EdgeT} {n : ℕ}
    (hrej : ∀ rstm f1, faceAccepts eng tmax amin p0 rstm (lookupBlock blocks n) f1 = false) :
    processNbr eng tmax amin blocks k origin uvw p0 es n = none ∨
    processNbr eng tmax amin blocks k origin uvw p0 es n = some es := by
  simp only [processNbr]
  by_cases h0 : n = k
  · right; rw [if_pos h0]
  rw [if_neg h0]
  by_cases h1 : hasEdgeD es k n = true
  · right; rw [if_pos h1]
  rw [if_neg h1]
  by_cases h2 : hasEdgeD es n k = true
  · right; rw [if_pos h2]
  rw [if_neg h2]
  cases hs : solveNbr uvw origin (lookupBlock blocks n) with
  | none => left; rfl
  | some rstm =>
    right
    exact congrArg some (aux_face1_fold_id (fun f1 _ => hrej rstm f1))

theorem aux_nbrs_fold_extract {eng : PolygonEngine} {tmax amin : ℚ}
    {blocks : List (ℕ × Block)} {k : ℕ} {origin : Vec3} {uvw : Mat3} {p0 : List Vec3}
    {l : List ℕ} {es es' : List EdgeT}
    (h : foldlO (processNbr eng tmax amin blocks k origin uvw p0) es l = some es') :
    (∀ x y, hasEdgeD es x y = true → hasEdgeD es' x y = true) ∧
    (∀ n ∈ l, n ≠ k → hasEdgeD es' k n = false → hasEdgeD es' n k = false →
      ∃ rstm, solveNbr uvw origin (lookupBlock blocks n) = some rstm ∧
        ∀ f1 ∈ (lookupBlock blocks n).faces.map Prod.fst,
          faceAccepts eng tmax amin p0 rstm (lookupBlock blocks n) f1 = false) := by
  induction l generalizing es with
  | nil =>
    simp only [foldlO, Option.some.injEq] at h
    subst h
    exact ⟨fun x y hxy => hxy, fun n hn => absurd hn (List.not_mem_nil n)⟩
  | cons b l ih =>
    rw [foldlO] at h
    cases hb : processNbr eng tmax amin blocks k origin uvw p0 es b with
    | none => rw [hb] at h; cases h
    | some es1 =>
      rw [hb] at h
      obtain ⟨mono1, prop1⟩ := ih h
      refine ⟨fun x y hxy => mono1 x y (aux_processNbr_mono hb hxy), ?_⟩
      intro n hn hnk hkf hnf
      rcases List.mem_cons.mp hn with rfl | hn'
      · have hk1 : hasEdgeD es1 k n = false := by
          cases hq : hasEdgeD es1 k n
          · rfl
          · exact absurd (mono1 k n hq) (by simp [hkf])
        have hn1 : hasEdgeD es1 n k = false := by
          cases hq : hasEdgeD es1 n k
          · rfl
          · exact absurd (mono1 n k hq) (by simp [hnf])
        exact aux_processNbr_extract hb hnk hk1 hn1
      · exact prop1 n hn' hnk hkf hnf

theorem aux_processFrame_extract {eng : PolygonEngine} {tmax amin : ℚ}
    {blocks : List (ℕ × Block)} {k : ℕ} {blk : Block} {nbrKeys : List ℕ}
    {es es' : List EdgeT} {fr : ℕ × Vec3 × Mat3}
    (h : processFrame eng tmax amin blocks k blk nbrKeys es fr = some es') :
    (∀ x y, hasEdgeD es x y = true → hasEdgeD es' x y = true) ∧
    ∃ p0, solveFace0 blk fr.1 fr.2.1 fr.2.2 = some p0 ∧
      (∀ n ∈ nbrKeys, n ≠ k → hasEdgeD es' k n = false → hasEdgeD es' n k = false →
        ∃ rstm, solveNbr fr.2.2 fr.2.1 (lookupBlock blocks n) = some rstm ∧
          ∀ f1 ∈ (lookupBlock blocks n).faces.map Prod.fst,
            faceAccepts eng tmax amin p0 rstm (lookupBlock blocks n) f1 = false) := by
  simp only [processFrame] at h
  cases hs : solveFace0 blk fr.1 fr.2.1 fr.2.2 with
  | none => rw [hs] at h; cases h
  | some p0 =>
    rw [hs] at h
    obtain ⟨mono, prop⟩ := aux_nbrs_fold_extract h
    exact ⟨mono, p0, rfl, prop⟩

theorem aux_processFrame_pairUnique {eng : PolygonEngine} {tmax amin : ℚ}
    {blocks : List (ℕ × Block)} {k : ℕ} {blk : Block} {nbrKeys : List ℕ}
    {es es' : List EdgeT} {fr : ℕ × Vec3 × Mat3}
    (h : processFrame eng tmax amin blocks k blk nbrKeys es fr = some es')
    (hP : pairUnique es) : pairUnique es' := by
  simp only [processFrame] at h
  cases hs : solveFace0 blk fr.1 fr.2.1 fr.2.2 with
  | none => rw [hs] at h; cases h
  | some p0 =>
    rw [hs] at h
    exact aux_foldlO_inv pairUnique _ h hP
      (fun t a t' _ ht hstep => aux_processNbr_pairUnique hstep ht)

theorem aux_processFrame_shaped {eng : PolygonEngine} {tmax amin : ℚ}
    {blocks : List (ℕ × Block)} {k : ℕ} {blk : Block} {nbrKeys : List ℕ}
    {es es' es₀ : List EdgeT} {fr : ℕ × Vec3 × Mat3}
    (h : processFrame eng tmax amin blocks k blk nbrKeys es fr = some es')
    (hS : ∀ e ∈ es, e ∈ es₀ ∨ NewShaped eng amin e) :
    ∀ e ∈ es', e ∈ es₀ ∨ NewShaped eng amin e := by
  simp only [processFrame] at h
  cases hs : solveFace0 blk fr.1 fr.2.1 fr.2.2 with
  | none => rw [hs] at h; cases h
  | some p0 =>
    rw [hs] at h
    exact aux_foldlO_inv (fun es => ∀ e ∈ es, e ∈ es₀ ∨ NewShaped eng amin e) _ h hS
      (fun t a t' _ ht hstep => aux_processNbr_shaped hstep ht)

theorem aux_processFrame_id {eng : PolygonEngine} {tmax amin : ℚ}
    {blocks : List (ℕ × Block)} {k : ℕ} {blk : Block} {nbrKeys : List ℕ}
    {es : List EdgeT} {fr : ℕ × Vec3 × Mat3} {p0 : List Vec3}
    (hs : solveFace0 blk fr.1 fr.2.1 fr.2.2 = some p0)
    (hn : ∀ n ∈ nbrKeys, n ≠ k → hasEdgeD es k n = false → hasEdgeD es n k = false →
      ∃ rstm, solveNbr fr.2.2 fr.2.1 (lookupBlock blocks n) = some rstm ∧
        ∀ f1 ∈ (lookupBlock blocks n).faces.map Prod.fst,
          faceAccepts eng tmax amin p0 rstm (lookupBlock blocks n) f1 = false) :
    processFrame eng tmax amin blocks k blk nbrKeys es fr = some es := by
  simp only [processFrame]
  rw [hs]
  exact aux_foldlO_id _ (fun n hn' => aux_processNbr_id (hn n hn'))

theorem aux_processFrame_none_or_id {eng : PolygonEngine} {tmax amin : ℚ}
    {blocks : List (ℕ × Block)} {k : ℕ} {blk : Block} {nbrKeys : List ℕ}
    {es : List EdgeT} {fr : ℕ × Vec3 × Mat3}
    (hrej : ∀ p0 rstm nbr f1, faceAccepts eng tmax amin p0 rstm nbr f1 = false) :
    processFrame eng tmax amin blocks k blk nbrKeys es fr = none ∨
    processFrame eng tmax amin blocks k blk nbrKeys es fr = some es := by
  simp only [processFrame]
  cases hs : solveFace0 blk fr.1 fr.2.1 fr.2.2 with
  | none => left; rfl
  | some p0 =>
    exact aux_foldlO_none_or_id _
      (fun t n _ => aux_processNbr_none_or_id (fun rstm f1 => hrej p0 rstm _ f1)) es

theorem aux_frames_fold_extract {eng : PolygonEngine} {tmax amin : ℚ}
    {blocks : List (ℕ × Block)} {k : ℕ} {blk : Block} {nbrKeys : List ℕ}
    {l : List (ℕ × Vec3 × Mat3)} {es es' : List EdgeT}
    (h : foldlO (processFrame eng tmax amin blocks k blk nbrKeys) es l = some es') :
    (∀ x y, hasEdgeD es x y = true → hasEdgeD es' x y = true) ∧
    (∀ fr ∈ l, ∃ p0, solveFace0 blk fr.1 fr.2.1 fr.2.2 = some p0 ∧
      ∀ n ∈ nbrKeys, n ≠ k → hasEdgeD es' k n = false → hasEdgeD es' n k = false →
        ∃ rstm, solveNbr fr.2.2 fr.2.1 (lookupBlock blocks n) = some rstm ∧
          ∀ f1 ∈ (lookupBlock blocks n).faces.map Prod.fst,
            faceAccepts eng tmax amin p0 rstm (lookupBlock blocks n) f1 = false) := by
  induction l generalizing es with
  | nil =>
    simp only [foldlO, Option.some.injEq] at h
    subst h
    exact ⟨fun x y hxy => hxy, fun fr hfr => absurd hfr (List.not_mem_nil fr)⟩
  | cons b l ih =>
    rw [foldlO] at h
    cases hb : processFrame eng tmax amin blocks k blk nbrKeys es b with
    | none => rw [hb] at h; cases h
    | some es1 =>
      rw [hb] at h
      obtain ⟨mono1, prop1⟩ := ih h
      obtain ⟨monoB, p0, hs0, propB⟩ := aux_processFrame_extract hb
      refine ⟨fun x y hxy => mono1 x y (monoB x y hxy), ?_⟩
      intro fr hfr
      rcases List.mem_cons.mp hfr with rfl | hfr'
      · refine ⟨p0, hs0, ?_⟩
        intro n hn hnk hkf hnf
        have hk1 : hasEdgeD es1 k n = false := by
          cases hq : hasEdgeD es1 k n
          · rfl
          · exact absurd (mono1 k n hq) (by simp [hkf])
        have hn1 : hasEdgeD es1 n k = false := by
          cases hq : hasEdgeD es1 n k
          · rfl
          · exact absurd (mono1 n k hq) (by simp [hnf])
        exact propB n hn hnk hk1 hn1
      · exact prop1 fr hfr'

theorem aux_processBlock_extract {eng : PolygonEngine} {cfg : Config}
    {blocks : List (ℕ × Block)} {keys : List ℕ} {nnbrs : List (List ℕ)}
    {es es' : List EdgeT} {i : ℕ}
    (h : processBlock eng cfg blocks keys nnbrs es i = some es') :
    (∀ x y, hasEdgeD es x y = true → hasEdgeD es' x y = true) ∧
    (cfg.face_face = true →
      ∀ fr ∈ (lookupBlock blocks ((keys.get? i).getD 0)).frames,
        ∃ p0, solveFace0 (lookupBlock blocks ((keys.get? i).getD 0)) fr.1 fr.2.1 fr.2.2
            = some p0 ∧
          ∀ n ∈ ((nnbrs.get? i).getD []).map (fun j => (keys.get? j).getD 0),
            n ≠ (keys.get? i).getD 0 →
            hasEdgeD es' ((keys.get? i).getD 0) n = false →
            hasEdgeD es' n ((keys.get? i).getD 0) = false →
            ∃ rstm, solveNbr fr.2.2 fr.2.1 (lookupBlock blocks n) = some rstm ∧
              ∀ f1 ∈ (lookupBlock blocks n).faces.map Prod.fst,
                faceAccepts eng cfg.tmax cfg.amin p0 rstm (lookupBlock blocks n) f1 = false) := by
  simp only [processBlock] at h
  by_cases hff : cfg.face_face = true
  · rw [if_pos hff] at h
    obtain ⟨mono, prop⟩ := aux_frames_fold_extract h
    exact ⟨mono, fun _ => prop⟩
  · rw [if_neg hff] at h
    obtain rfl := Option.some.inj h
    exact ⟨fun x y hxy => hxy, fun hc => absurd hc hff⟩

theorem aux_processBlock_pairUnique {eng : PolygonEngine} {cfg : Config}
    {blocks : List (ℕ × Block)} {keys : List ℕ} {nnbrs : List (List ℕ)}
    {es es' : List EdgeT} {i : ℕ}
    (h : processBlock eng cfg blocks keys nnbrs es i = some es')
    (hP : pairUnique es) : pairUnique es' := by
  simp only [processBlock] at h
  by_cases hff : cfg.face_face = true
  · rw [if_pos hff] at h
    exact aux_foldlO_inv pairUnique _ h hP
      (fun t a t' _ ht hstep => aux_processFrame_pairUnique hstep ht)
  · rw [if_neg hff] at h
    obtain rfl := Option.some.inj h
    exact hP

theorem aux_processBlock_shaped {eng : PolygonEngine} {cfg : Config}
    {blocks : List (ℕ × Block)} {keys : List ℕ} {nnbrs : List (List ℕ)}
    {es es' es₀ : List EdgeT} {i : ℕ}
    (h : processBlock eng cfg blocks keys nnbrs es i = some es')
    (hS : ∀ e ∈ es, e ∈ es₀ ∨ NewShaped eng cfg.amin e) :
    ∀ e ∈ es', e ∈ es₀ ∨ NewShaped eng cfg.amin e := by
  simp only [processBlock] at h
  by_cases hff : cfg.face_face = true
  · rw [if_pos hff] at h
    exact aux_foldlO_inv (fun es => ∀ e ∈ es, e ∈ es₀ ∨ NewShaped eng cfg.amin e) _ h hS
      (fun t a t' _ ht hstep => aux_processFrame_shaped hstep ht)
  · rw [if_neg hff] at h
    obtain rfl := Option.some.inj h
    exact hS

theorem aux_processBlock_id {eng : PolygonEngine} {cfg : Config}
    {blocks : List (ℕ × Block)} {keys : List ℕ} {nnbrs : List (List ℕ)}
    {es : List EdgeT} {i : ℕ}
    (hprop : cfg.face_face = true →
      ∀ fr ∈ (lookupBlock blocks ((keys.get? i).getD 0)).frames,
        ∃ p0, solveFace0 (lookupBlock blocks ((keys.get? i).getD 0)) fr.1 fr.2.1 fr.2.2
            = some p0 ∧
          ∀ n ∈ ((nnbrs.get? i).getD []).map (fun j => (keys.get? j).getD 0),
            n ≠ (keys.get? i).getD 0 →
            hasEdgeD es ((keys.get? i).getD 0) n = false →
            hasEdgeD es n ((keys.get? i).getD 0) = false →
            ∃ rstm, solveNbr fr.2.2 fr.2.1 (lookupBlock blocks n) = some rstm ∧
              ∀ f1 ∈ (lookupBlock blocks n).faces.map Prod.fst,
                faceAccepts eng cfg.tmax cfg.amin p0 rstm (lookupBlock blocks n) f1 = false) :
    processBlock eng cfg blocks keys nnbrs es i = some es := by
  simp only [processBlock]
  by_cases hff : cfg.face_face = true
  · rw [if_pos hff]
    refine aux_foldlO_id _ ?_
    intro fr hfr
    obtain ⟨p0, hs0, hn⟩ := hprop hff fr hfr
    exact aux_processFrame_id hs0 hn
  · rw [if_neg hff]

theorem aux_processBlock_none_or_id {eng : PolygonEngine} {cfg : Config}
    {blocks : List (ℕ × Block)} {keys : List ℕ} {nnbrs : List (List ℕ)}
    {es : List EdgeT} {i : ℕ}
    (hrej : ∀ p0 rstm nbr f1, faceAccepts eng cfg.tmax cfg.amin p0 rstm nbr f1 = false) :
    processBlock eng cfg blocks keys nnbrs es i = none ∨
    processBlock eng cfg blocks keys nnbrs es i = some es := by
  simp only [processBlock]
  by_cases hff : cfg.face_face = true
  · rw [if_pos hff]
    exact aux_foldlO_none_or_id _ (fun t fr _ => aux_processFrame_none_or_id hrej) es
  · rw [if_neg hff]; right; rfl

theorem aux_blocks_fold_extract {eng : PolygonEngine} {cfg : Config}
    {blocks : List (ℕ × Block)} {keys : List ℕ} {nnbrs : List (List ℕ)}
    {l : List ℕ} {es es' : List EdgeT}
    (h : foldlO (processBlock eng cfg blocks keys nnbrs) es l = some es') :
    (∀ x y, hasEdgeD es x y = true → hasEdgeD es' x y = true) ∧
    (∀ i ∈ l, cfg.face_face = true →
      ∀ fr ∈ (lookupBlock blocks ((keys.get? i).getD 0)).frames,
        ∃ p0, solveFace0 (lookupBlock blocks ((keys.get? i).getD 0)) fr.1 fr.2.1 fr.2.2
            = some p0 ∧
          ∀ n ∈ ((nnbrs.get? i).getD []).map (fun j => (keys.get? j).getD 0),
            n ≠ (keys.get? i).getD 0 →
            hasEdgeD es' ((keys.get? i).getD 0) n = false →
            hasEdgeD es' n ((keys.get? i).getD 0) = false →
            ∃ rstm, solveNbr fr.2.2 fr.2.1 (lookupBlock blocks n) = some rstm ∧
              ∀ f1 ∈ (lookupBlock blocks n).faces.map Prod.fst,
                faceAccepts eng cfg.tmax cfg.amin p0 rstm (lookupBlock blocks n) f1 = false) := by
  induction l generalizing es with
  | nil =>
    simp only [foldlO, Option.some.injEq] at h
    subst h
    exact ⟨fun x y hxy => hxy, fun i hi => absurd hi (List.not_mem_nil i)⟩
  | cons b l ih =>
    rw [foldlO] at h
    cases hb : processBlock eng cfg blocks keys nnbrs es b with
    | none => rw [hb] at h; cases h
    | some es1 =>
      rw [hb] at h
      obtain ⟨mono1, prop1⟩ := ih h
      obtain ⟨monoB, propB⟩ := aux_processBlock_extract hb
      refine ⟨fun x y hxy => mono1 x y (monoB x y hxy), ?_⟩
      intro i hi hff fr hfr
      rcases List.mem_cons.mp hi with rfl | hi'
      · obtain ⟨p0, hs0, hn⟩ := propB hff fr hfr
        refine ⟨p0, hs0, ?_⟩
        intro n hnmem hnk hkf hnf
        have hk1 : hasEdgeD es1 ((keys.get? i).getD 0) n = false := by
          cases hq : hasEdgeD es1 ((keys.get? i).getD 0) n
          · rfl
          · exact (mono1 _ _ hq).symm.trans hkf
        have hn1 : hasEdgeD es1 n ((keys.get? i).getD 0) = false := by
          cases hq : hasEdgeD es1 n ((keys.get? i).getD 0)
          · rfl
          · exact (mono1 _ _ hq).symm.trans hnf
        exact hn n hnmem hnk hk1 hn1
      · exact prop1 i hi' hff fr hfr

theorem aux_mkAttr_keys (area : ℚ) (coords : List Vec3) (origin : Vec3) (uvw : Mat3) :
    (mkAttr area coords origin uvw).map Prod.fst =
      ["interface_type", "interface_size", "interface_points",
       "interface_origin", "interface_uvw"] := rfl

theorem aux_stored_eq (area : ℚ) (coords : List Vec3) (origin : Vec3) (uvw : Mat3) :
    updateAttrs defaultEdgeAttributes (mkAttr area coords origin uvw) =
      [("interface_points", AttrValue.pts coords.dropLast),
       ("interface_type", AttrValue.str "face_face"),
       ("niterface_size", AttrValue.pyNone),
       ("interface_uvw", AttrValue.frame uvw),
       ("interface_origin", AttrValue.pt origin),
       ("interface_forces", AttrValue.pyNone),
       ("interface_size", AttrValue.num area)] := rfl

theorem aux_stored_keys (area : ℚ) (coords : List Vec3) (origin : Vec3) (uvw : Mat3) :
    (updateAttrs defaultEdgeAttributes (mkAttr area coords origin uvw)).map Prod.fst =
      ["interface_points", "interface_type", "niterface_size", "interface_uvw",
       "interface_origin", "interface_forces", "interface_size"] := rfl

theorem aux_stored_size (area : ℚ) (coords : List Vec3) (origin : Vec3) (uvw : Mat3) :
    lookupAttr (updateAttrs defaultEdgeAttributes (mkAttr area coords origin uvw))
      "interface_size" = some (AttrValue.num area) := rfl

theorem aux_stored_points (area : ℚ) (coords : List Vec3) (origin : Vec3) (uvw : Mat3) :
    lookupAttr (updateAttrs defaultEdgeAttributes (mkAttr area coords origin uvw))
      "interface_points" = some (AttrValue.pts coords.dropLast) := rfl

theorem aux_stored_forces (area : ℚ) (coords : List Vec3) (origin : Vec3) (uvw : Mat3) :
    lookupAttr (updateAttrs defaultEdgeAttributes (mkAttr area coords origin uvw))
      "interface_forces" = some AttrValue.pyNone := rfl

theorem aux_stored_nsize (area : ℚ) (coords : List Vec3) (origin : Vec3) (uvw : Mat3) :
    lookupAttr (updateAttrs defaultEdgeAttributes (mkAttr area coords origin uvw))
      "niterface_size" = some AttrValue.pyNone := rfl

theorem aux_identify_shaped {eng : PolygonEngine} {asm : Assembly} {cfg : Config}
    {asm' : Assembly} (h : identify_interfaces eng asm cfg = some asm') :
    ∀ e ∈ asm'.edges, e ∈ asm.edges ∨ NewShaped eng cfg.amin e := by
  simp only [identify_interfaces] at h
  rw [Option.map_eq_some'] at h
  obtain ⟨es, hf, rfl⟩ := h
  intro e he
  exact aux_foldlO_inv (fun es => ∀ e ∈ es, e ∈ asm.edges ∨ NewShaped eng cfg.amin e) _ hf
    (fun e he => Or.inl he)
    (fun t a t' _ ht hstep => aux_processBlock_shaped hstep ht) e he


/-!
## Claim theorems

The `Rat` arithmetic operations are `@[irreducible]` in the ambient
library; the witnesses below evaluate concrete runs of the embedded
algorithm, so reducibility is restored locally for this section (this
only affects elaboration-time unfolding, not the trusted kernel).
-/

section

attribute [local semireducible] Rat.add Rat.mul Rat.sub Rat.inv Rat.ofScientific

/-- C1: after a full identification pass, at most one edge (counting
both directions) exists between any unordered pair of blocks.  Before
inserting an interface for `(k, n)`, `identify_interfaces` skips the
candidate if an edge already exists between `k` and `n` in either
direction, so starting from an assembly satisfying the invariant, the
invariant holds after the pass regardless of processing order. -/
theorem C1_at_most_one_edge {eng : PolygonEngine} {asm : Assembly} {cfg : Config}
    {asm' : Assembly} (h0 : pairUnique asm.edges)
    (h : identify_interfaces eng asm cfg = some asm') : pairUnique asm'.edges := by
  simp only [identify_interfaces] at h
  rw [Option.map_eq_some'] at h
  obtain ⟨es, hf, rfl⟩ := h
  exact aux_foldlO_inv pairUnique _ hf h0
    (fun t a t' _ ht hstep => aux_processBlock_pairUnique hstep ht)

theorem C1_at_most_one_edge_witness :
    pairUnique asmW.edges ∧ identify_interfaces engT asmW cfgW = some asmW2 ∧
      pairUnique asmW2.edges :=
  ⟨List.Pairwise.nil, by decide,
   @C1_at_most_one_edge engT asmW cfgW asmW2 List.Pairwise.nil (by decide)⟩

/-- C2: the area threshold of `identify_interfaces` is inclusive.
Every edge the pass creates carries `interface_size ≥ amin`; a face
pair whose intersection area is exactly `amin` is accepted (an edge is
inserted); an intersection with area strictly below `amin` leaves the
edge list unchanged. -/
theorem C2_amin_inclusive {eng : PolygonEngine} {asm : Assembly} {cfg : Config}
    {asm' : Assembly} (h : identify_interfaces eng asm cfg = some asm') :
    (∀ e ∈ asm'.edges, e ∈ asm.edges ∨
      ∃ q, lookupAttr e.2.2 "interface_size" = some (AttrValue.num q) ∧ cfg.amin ≤ q) ∧
    (∀ (amin : ℚ) (k n : ℕ) (origin : Vec3) (uvw : Mat3) (p0 rst1 : List Vec3)
        (es : List EdgeT),
      eng.area rst1 ≠ 0 → eng.intersects p0 rst1 = true →
      eng.area (eng.intersection p0 rst1) = amin →
      polygonStage eng amin k n origin uvw p0 rst1 es =
        addEdge es k n (mkAttr (eng.area (eng.intersection p0 rst1))
          (worldRing origin uvw (eng.intersection p0 rst1)) origin uvw)) ∧
    (∀ (amin : ℚ) (k n : ℕ) (origin : Vec3) (uvw : Mat3) (p0 rst1 : List Vec3)
        (es : List EdgeT),
      eng.area (eng.intersection p0 rst1) < amin →
      polygonStage eng amin k n origin uvw p0 rst1 es = es) := by
  refine ⟨?_, ?_, ?_⟩
  · intro e he
    rcases aux_identify_shaped h e he with hmem | ⟨-, origin, uvw, ring, heq, harea⟩
    · exact Or.inl hmem
    · refine Or.inr ⟨eng.area ring, ?_, harea⟩
      rw [heq]
      exact aux_stored_size _ _ _ _
  · intro amin k n origin uvw p0 rst1 es h1 h2 h3
    unfold polygonStage
    rw [if_neg h1, if_pos h2, if_pos (le_of_eq h3.symm)]
  · intro amin k n origin uvw p0 rst1 es hlt
    unfold polygonStage
    by_cases h1 : eng.area rst1 = 0
    · rw [if_pos h1]
    · rw [if_neg h1]
      by_cases h2 : eng.intersects p0 rst1 = true
      · rw [if_pos h2, if_neg (not_le.mpr hlt)]
      · rw [if_neg h2]

theorem C2_amin_inclusive_witness :
    (edgeW ∈ asmW.edges ∨
      ∃ q, lookupAttr edgeW.2.2 "interface_size" = some (AttrValue.num q) ∧
        cfgW.amin ≤ q) ∧
    (polygonStage engT 1 0 1 ⟨0, 0, 1⟩ frameI [] [⟨0, 0, 0⟩] [] =
      addEdge [] 0 1 (mkAttr (engT.area (engT.intersection [] [⟨0, 0, 0⟩]))
        (worldRing ⟨0, 0, 1⟩ frameI (engT.intersection [] [⟨0, 0, 0⟩])) ⟨0, 0, 1⟩ frameI)) ∧
    (polygonStage engT 2 0 1 ⟨0, 0, 1⟩ frameI [] [⟨0, 0, 0⟩] [] = []) :=
  ⟨(@C2_amin_inclusive engT asmW cfgW asmW2 (by decide)).1 edgeW (by decide),
   (@C2_amin_inclusive engT asmW cfgW asmW2 (by decide)).2.1 1 0 1 ⟨0, 0, 1⟩ frameI []
     [⟨0, 0, 0⟩] [] (by decide) (by decide) (by decide),
   (@C2_amin_inclusive engT asmW cfgW asmW2 (by decide)).2.2 2 0 1 ⟨0, 0, 1⟩ frameI []
     [⟨0, 0, 0⟩] [] (by decide)⟩

/-- C3: a neighbour face is rejected as non-coplanar exactly when some
projected vertex's out-of-plane coordinate exceeds `tmax` in absolute
value: if every deviation is at most `tmax` (the boundary `tmax` itself
included) the face passes the coplanarity filter on to the polygon
stage, while a single vertex above `tmax` short-circuits the face to a
rejection. -/
theorem C3_coplanarity_boundary (eng : PolygonEngine) (tmax amin : ℚ) (k n : ℕ)
    (origin : Vec3) (uvw : Mat3) (p0 : List Vec3) (rstm : List (ℕ × Vec3)) (nbr : Block)
    (es : List EdgeT) (f1 : ℕ) :
    ((∀ c ∈ localFace rstm nbr f1, |c.z| ≤ tmax) →
      processFace1 eng tmax amin k n origin uvw p0 rstm nbr es f1 =
        polygonStage eng amin k n origin uvw p0 (localFace rstm nbr f1) es) ∧
    ((∃ c ∈ localFace rstm nbr f1, tmax < |c.z|) →
      processFace1 eng tmax amin k n origin uvw p0 rstm nbr es f1 = es) := by
  constructor
  · intro hall
    have hc : coplanarCheck tmax (localFace rstm nbr f1) = false := by
      unfold coplanarCheck
      rw [List.any_eq_false]
      intro c hcm
      simpa using not_lt.mpr (hall c hcm)
    unfold processFace1
    rw [if_neg (by simp [hc])]
  · rintro ⟨c, hcm, hlt⟩
    have hc : coplanarCheck tmax (localFace rstm nbr f1) = true := by
      unfold coplanarCheck
      rw [List.any_eq_true]
      exact ⟨c, hcm, by simpa using hlt⟩
    unfold processFace1
    rw [if_pos hc]

theorem C3_coplanarity_boundary_witness :
    (processFace1 engT (1/2) 1 0 1 ⟨0, 0, 1⟩ frameI []
        [(0, ⟨0, 0, 1/2⟩), (1, ⟨1, 0, 1/2⟩), (2, ⟨1, 1, 1/2⟩), (3, ⟨0, 1, 1/2⟩)] blk1 [] 20 =
      polygonStage engT 1 0 1 ⟨0, 0, 1⟩ frameI []
        (localFace [(0, ⟨0, 0, 1/2⟩), (1, ⟨1, 0, 1/2⟩), (2, ⟨1, 1, 1/2⟩), (3, ⟨0, 1, 1/2⟩)]
          blk1 20) []) ∧
    (processFace1 engT (1/2) 1 0 1 ⟨0, 0, 1⟩ frameI []
        [(0, ⟨0, 0, 1/2 + 1/1000000⟩), (1, ⟨1, 0, 0⟩), (2, ⟨1, 1, 0⟩), (3, ⟨0, 1, 0⟩)]
        blk1 [] 20 = []) :=
  ⟨(C3_coplanarity_boundary engT (1/2) 1 0 1 ⟨0, 0, 1⟩ frameI []
      [(0, ⟨0, 0, 1/2⟩), (1, ⟨1, 0, 1/2⟩), (2, ⟨1, 1, 1/2⟩), (3, ⟨0, 1, 1/2⟩)] blk1 [] 20).1
      (by decide),
   (C3_coplanarity_boundary engT (1/2) 1 0 1 ⟨0, 0, 1⟩ frameI []
      [(0, ⟨0, 0, 1/2 + 1/1000000⟩), (1, ⟨1, 0, 0⟩), (2, ⟨1, 1, 0⟩), (3, ⟨0, 1, 0⟩)]
      blk1 [] 20).2 (by decide)⟩

theorem C4_counterexample :
    identify_interfaces engT asmW cfgW = some asmW2 ∧ edgeW ∈ asmW2.edges ∧
    (edgeW.2.2).map Prod.fst =
      ["interface_points", "interface_type", "niterface_size", "interface_uvw",
       "interface_origin", "interface_forces", "interface_size"] ∧
    (edgeW.2.2).map Prod.fst ≠
      ["interface_type", "interface_size", "interface_points",
       "interface_origin", "interface_uvw"] ∧
    lookupAttr edgeW.2.2 "interface_forces" = some AttrValue.pyNone ∧
    lookupAttr edgeW.2.2 "niterface_size" = some AttrValue.pyNone :=
  ⟨by decide, by decide, by decide, by decide, by decide, by decide⟩

/-- C4 (amended): every edge created by `identify_interfaces` carries
the five-field dict literal of lines 200–206 (`interface_type`,
`interface_size`, `interface_points`, `interface_origin`,
`interface_uvw`, with `interface_points` the world-space intersection
ring minus the repeated closing point) merged over the
`default_edge_attributes` seeded in `Assembly.__init__`
(lines 47–54 of `assembly.py`): the stored dict therefore has exactly
seven keys — the five identify fields with their computed values plus
`interface_forces` and the misspelled `niterface_size` left at their
`None` defaults. -/
theorem C4_attr_schema {eng : PolygonEngine} {asm : Assembly} {cfg : Config}
    {asm' : Assembly} (h : identify_interfaces eng asm cfg = some asm') :
    ∀ e ∈ asm'.edges, e ∉ asm.edges →
      ∃ origin uvw ring,
        e.2.2 = updateAttrs defaultEdgeAttributes
          (mkAttr (eng.area ring) (worldRing origin uvw ring) origin uvw) ∧
        (e.2.2).map Prod.fst =
          ["interface_points", "interface_type", "niterface_size", "interface_uvw",
           "interface_origin", "interface_forces", "interface_size"] ∧
        lookupAttr e.2.2 "interface_points" =
          some (AttrValue.pts (worldRing origin uvw ring).dropLast) ∧
        lookupAttr e.2.2 "interface_forces" = some AttrValue.pyNone ∧
        lookupAttr e.2.2 "niterface_size" = some AttrValue.pyNone := by
  intro e he hnot
  rcases aux_identify_shaped h e he with hmem | ⟨-, origin, uvw, ring, heq, -⟩
  · exact absurd hmem hnot
  · refine ⟨origin, uvw, ring, heq, ?_, ?_, ?_, ?_⟩
    · rw [heq]; exact aux_stored_keys _ _ _ _
    · rw [heq]; exact aux_stored_points _ _ _ _
    · rw [heq]; exact aux_stored_forces _ _ _ _
    · rw [heq]; exact aux_stored_nsize _ _ _ _

theorem C4_attr_schema_witness :
    ∃ origin uvw ring,
      edgeW.2.2 = updateAttrs defaultEdgeAttributes
        (mkAttr (engT.area ring) (worldRing origin uvw ring) origin uvw) ∧
      (edgeW.2.2).map Prod.fst =
        ["interface_points", "interface_type", "niterface_size", "interface_uvw",
         "interface_origin", "interface_forces", "interface_size"] ∧
      lookupAttr edgeW.2.2 "interface_points" =
        some (AttrValue.pts (worldRing origin uvw ring).dropLast) ∧
      lookupAttr edgeW.2.2 "interface_forces" = some AttrValue.pyNone ∧
      lookupAttr edgeW.2.2 "niterface_size" = some AttrValue.pyNone :=
  by exact @C4_attr_schema engT asmW cfgW asmW2 (by decide) edgeW (by decide) (by decide)

/-- C9: `identify_interfaces` never creates a self-loop: the explicit
`n == k` skip guarantees every created edge joins two distinct keys, so
an assembly without self-loops has none after the pass — even though
the nearest-neighbour query does return the queried block itself in its
own candidate list (concrete instance in the second conjunct). -/
theorem C9_no_self_loops {eng : PolygonEngine} {asm : Assembly} {cfg : Config}
    {asm' : Assembly} (h0 : ∀ e ∈ asm.edges, e.1 ≠ e.2.1)
    (h : identify_interfaces eng asm cfg = some asm') :
    (∀ e ∈ asm'.edges, e.1 ≠ e.2.1) ∧
    (findNearestNeighbours [⟨0, 0, 0⟩, ⟨1, 0, 0⟩] 2).get? 0 = some [0, 1] := by
  refine ⟨?_, by decide⟩
  intro e he
  rcases aux_identify_shaped h e he with hmem | hshaped
  · exact h0 e hmem
  · exact hshaped.1

theorem C9_no_self_loops_witness :
    (∀ e ∈ asmW2.edges, e.1 ≠ e.2.1) ∧
    (findNearestNeighbours [⟨0, 0, 0⟩, ⟨1, 0, 0⟩] 2).get? 0 = some [0, 1] :=
  @C9_no_self_loops engT asmW cfgW asmW2
    (fun e he => absurd he (List.not_mem_nil e)) (by decide)

@[simp] theorem aux_add_x (a b : Vec3) : (a + b).x = a.x + b.x := rfl

@[simp] theorem aux_add_y (a b : Vec3) : (a + b).y = a.y + b.y := rfl

@[simp] theorem aux_add_z (a b : Vec3) : (a + b).z = a.z + b.z := rfl

@[simp] theorem aux_sub_x (a b : Vec3) : (a - b).x = a.x - b.x := rfl

@[simp] theorem aux_sub_y (a b : Vec3) : (a - b).y = a.y - b.y := rfl

@[simp] theorem aux_sub_z (a b : Vec3) : (a - b).z = a.z - b.z := rfl

@[simp] theorem aux_scale_x (q : ℚ) (v : Vec3) : (Vec3.scale q v).x = q * v.x := rfl

@[simp] theorem aux_scale_y (q : ℚ) (v : Vec3) : (Vec3.scale q v).y = q * v.y := rfl

@[simp] theorem aux_scale_z (q : ℚ) (v : Vec3) : (Vec3.scale q v).z = q * v.z := rfl

@[ext] theorem aux_vec3_ext {a b : Vec3} (hx : a.x = b.x) (hy : a.y = b.y)
    (hz : a.z = b.z) : a = b := by
  cases a; cases b; simp_all

/-- C8: round trip of the geometry primitives.  For a face with a
well-conditioned (orthonormal, non-singular) frame, a point coplanar
with the face (an `a·u + b·v` offset from the origin) projects by the
linear solve to local coordinates `(a, b, 0)`, and the inverse map
`globalCoords` (applied, as in the code, to the local point with third
coordinate `0`) reproduces the original point exactly. -/
theorem C8_roundtrip (o : Vec3) (A : Mat3) (p : Vec3) (a b : ℚ)
    (hON : orthonormalFrame A) (hdet : det3 A.u A.v A.w ≠ 0)
    (hcop : p = o + Vec3.scale a A.u + Vec3.scale b A.v) :
    solveAT A (p - o) = some ⟨a, b, 0⟩ ∧ globalCoords o A ⟨a, b, 0⟩ = p := by
  constructor
  · simp only [solveAT]
    rw [if_neg hdet]
    subst hcop
    have h1 : det3 (o + Vec3.scale a A.u + Vec3.scale b A.v - o) A.v A.w
        = a * det3 A.u A.v A.w := by
      simp only [det3, aux_add_x, aux_add_y, aux_add_z, aux_sub_x, aux_sub_y, aux_sub_z,
        aux_scale_x, aux_scale_y, aux_scale_z]
      ring
    have h2 : det3 A.u (o + Vec3.scale a A.u + Vec3.scale b A.v - o) A.w
        = b * det3 A.u A.v A.w := by
      simp only [det3, aux_add_x, aux_add_y, aux_add_z, aux_sub_x, aux_sub_y, aux_sub_z,
        aux_scale_x, aux_scale_y, aux_scale_z]
      ring
    have h3 : det3 A.u A.v (o + Vec3.scale a A.u + Vec3.scale b A.v - o) = 0 := by
      simp only [det3, aux_add_x, aux_add_y, aux_add_z, aux_sub_x, aux_sub_y, aux_sub_z,
        aux_scale_x, aux_scale_y, aux_scale_z]
      ring
    rw [h1, h2, h3, mul_div_cancel_right₀ a hdet, mul_div_cancel_right₀ b hdet, zero_div]
  · subst hcop
    apply aux_vec3_ext <;>
      simp only [globalCoords, aux_add_x, aux_add_y, aux_add_z, aux_scale_x, aux_scale_y,
        aux_scale_z] <;> ring

theorem C8_roundtrip_witness :
    solveAT frameI (Vec3.mk 1 2 0 - Vec3.mk 0 0 0) = some ⟨1, 2, 0⟩ ∧
    globalCoords ⟨0, 0, 0⟩ frameI ⟨1, 2, 0⟩ = Vec3.mk 1 2 0 :=
  C8_roundtrip ⟨0, 0, 0⟩ frameI ⟨1, 2, 0⟩ 1 2
    (by refine ⟨?_, ?_, ?_, ?_, ?_, ?_⟩ <;> decide) (by decide) (by decide)

/-- C10: `Assembly.add_support` accepts `attr_dict` and keyword
attributes but silently discards them: its result never depends on
them, and the vertex it inserts carries exactly `is_support=True` plus
the block's centroid coordinates — unlike `Assembly.add_block`, which
folds the given attributes into the inserted vertex (concrete instance
in the last conjunct). -/
theorem C10_add_support_discards_attrs :
    (∀ (asm : Assembly) (b : Block) (ad kw : Attrs),
      Assembly.add_support asm b ad kw = Assembly.add_support asm b [] []) ∧
    (∀ (asm : Assembly) (b : Block) (ad kw : Attrs),
      (Assembly.add_support asm b ad kw).1.vertices =
        asm.vertices ++ [(nextKey asm.vertices,
          [("is_support", AttrValue.boolean true), ("x", AttrValue.num b.centroid.x),
           ("y", AttrValue.num b.centroid.y), ("z", AttrValue.num b.centroid.z)])]) ∧
    (∀ (asm : Assembly) (b : Block) (ad kw : Attrs),
      (Assembly.add_block asm b ad kw).1.vertices =
        asm.vertices ++ [(nextKey asm.vertices,
          updateAttrs (updateAttrs defaultVertexAttributes (updateAttrs ad kw))
            (xyzAttrs b.centroid))]) ∧
    lookupAttr ((((Assembly.mk [] [] []).add_block blk0 [("name", AttrValue.str "A")]
        []).1.vertices.headD (0, [])).2) "name" = some (AttrValue.str "A") :=
  ⟨fun asm b ad kw => rfl, fun asm b ad kw => rfl, fun asm b ad kw => rfl, by decide⟩

/-- C5 (amended): when a base face's local frame is singular
(zero determinant), the linear solve of `identify_interfaces` fails
and the failure propagates out of the whole run — the pass aborts,
producing no result, instead of skipping the face and continuing with
the remaining faces. -/
theorem C5_singular_frame_aborts {eng : PolygonEngine} {asm : Assembly} {cfg : Config}
    {k f0 : ℕ} {o : Vec3} {A : Mat3}
    (hff : cfg.face_face = true)
    (hk : k ∈ asm.vertices.map Prod.fst)
    (hfr : (f0, o, A) ∈ (lookupBlock asm.blocks k).frames)
    (hdet : det3 A.u A.v A.w = 0)
    (hcoords : (lookupBlock asm.blocks k).faceCoordinates f0 ≠ []) :
    identify_interfaces eng asm cfg = none := by
  have hsolve : solveFace0 (lookupBlock asm.blocks k) f0 o A = none := by
    unfold solveFace0
    cases hc : (lookupBlock asm.blocks k).faceCoordinates f0 with
    | nil => exact absurd hc hcoords
    | cons c rest =>
      have hAT : solveAT A (c - o) = none := by simp [solveAT, hdet]
      simp [mapO, hAT]
  obtain ⟨i, hi⟩ : ∃ i, (asm.vertices.map Prod.fst).get? i = some k := by
    obtain ⟨n, hn⟩ := List.mem_iff_get.mp hk
    exact ⟨n, by rw [List.get?_eq_get n.isLt]; exact congrArg some hn⟩
  have hlen : i < (asm.vertices.map Prod.fst).length := by
    by_contra hge
    rw [List.get?_eq_none.mpr (le_of_not_lt hge)] at hi
    cases hi
  simp only [identify_interfaces]
  rw [Option.map_eq_none']
  refine aux_foldlO_none _ (List.mem_range.mpr hlen) ?_ asm.edges
  intro es
  simp only [processBlock, hi, Option.getD_some]
  rw [if_pos hff]
  refine aux_foldlO_none _ hfr ?_ es
  intro es'
  simp [processFrame, hsolve]

theorem C5_counterexample :
    identify_interfaces engT asmSing cfgW = none ∧
    (identify_interfaces engT asmCont cfgW).map (fun a => a.edges.length) = some 1 := by
  exact ⟨by decide, by decide⟩

theorem C5_singular_frame_aborts_witness :
    identify_interfaces engT asmSing cfgW = none :=
  @C5_singular_frame_aborts engT asmSing cfgW 0 30 ⟨0, 0, 1⟩ frameSing
    (by decide) (by decide) (by decide) (by decide) (by decide)

theorem aux_faceAccepts_neg_tmax {eng : PolygonEngine} {tmax amin : ℚ} {p0 : List Vec3}
    {rstm : List (ℕ × Vec3)} {nbr : Block} {f1 : ℕ}
    (ht : tmax < 0) (h0 : eng.area [] = 0) :
    faceAccepts eng tmax amin p0 rstm nbr f1 = false := by
  unfold faceAccepts
  cases hl : localFace rstm nbr f1 with
  | nil => simp [coplanarCheck, h0]
  | cons c rest =>
    have hcc : coplanarCheck tmax (c :: rest) = true := by
      unfold coplanarCheck
      rw [List.any_eq_true]
      exact ⟨c, List.mem_cons_self c rest,
        by simpa using lt_of_lt_of_le ht (abs_nonneg c.z)⟩
    simp [hcc]

/-- C6 (amended): `identify_interfaces` performs no configuration
validation and raises no configuration error.  With a negative `tmax`
every neighbour face fails the coplanarity filter (an empty face yields
a zero-area polygon instead), so the run either completes normally with
the assembly unchanged, or aborts for the unrelated singular-frame
reason — it never fails fast on the configuration itself. -/
theorem C6_no_config_validation {eng : PolygonEngine} {asm : Assembly} {cfg : Config}
    (ht : cfg.tmax < 0) (h0 : eng.area [] = 0) :
    identify_interfaces eng asm cfg = none ∨
    identify_interfaces eng asm cfg = some asm := by
  simp only [identify_interfaces]
  rcases aux_foldlO_none_or_id
      (processBlock eng cfg asm.blocks (asm.vertices.map Prod.fst)
        (findNearestNeighbours ((asm.vertices.map Prod.fst).map asm.vertexCoordinates)
          (min cfg.nmax (asm.vertices.map Prod.fst).length)))
      (fun t i _ => aux_processBlock_none_or_id
        (fun p0 rstm nbr f1 => aux_faceAccepts_neg_tmax ht h0))
      asm.edges with hcase | hcase
  · left; rw [hcase]; rfl
  · right; rw [hcase]; rfl

theorem C6_counterexample :
    identify_interfaces engT asmW cfgNeg = some asmW ∧
    (identify_interfaces engT asmW cfgW).map (fun a => a.edges.length) = some 1 := by
  exact ⟨by decide, by decide⟩

theorem C6_no_config_validation_witness :
    identify_interfaces engT asmW cfgNeg = none ∨
    identify_interfaces engT asmW cfgNeg = some asmW :=
  @C6_no_config_validation engT asmW cfgNeg (by decide) (by decide)

theorem aux_vertexCoordinates_edges (asm : Assembly) (es : List EdgeT) :
    Assembly.vertexCoordinates { asm with edges := es } = asm.vertexCoordinates := by
  funext k; rfl

/-- C7: identification is idempotent.  If a pass on an assembly with no
pre-existing edges succeeds, running `identify_interfaces` again on the
result reproduces it exactly: the duplicate check skips every pair
already connected by the first pass, and every pair the first pass left
unconnected fails the same (state-independent) geometric tests again. -/
theorem C7_idempotent {eng : PolygonEngine} {asm : Assembly} {cfg : Config} {asm' : Assembly}
    (h0 : asm.edges = [])
    (h1 : identify_interfaces eng asm cfg = some asm') :
    identify_interfaces eng asm' cfg = some asm' := by
  simp only [identify_interfaces] at h1
  rw [Option.map_eq_some'] at h1
  obtain ⟨es, hf, rfl⟩ := h1
  obtain ⟨-, prop⟩ := aux_blocks_fold_extract hf
  simp only [identify_interfaces, aux_vertexCoordinates_edges]
  rw [Option.map_eq_some']
  refine ⟨es, ?_, rfl⟩
  refine aux_foldlO_id _ ?_
  intro i hi
  exact aux_processBlock_id (fun hff fr hfr => prop i hi hff fr hfr)

theorem C7_idempotent_witness :
    asmW.edges = [] ∧ identify_interfaces engT asmW cfgW = some asmW2 ∧
      identify_interfaces engT asmW2 cfgW = some asmW2 :=
  ⟨rfl, by decide, @C7_idempotent engT asmW cfgW asmW2 rfl (by decide)⟩

end
